import Mathlib

/-!
Shallow embedding of the FER per-frame pipeline (fer_core.py and
live_camera_app.py): the emotion label mapper and distribution remapping of
`FEREngine.analyze_emotion`, the bounding-box computation of
`FEREngine.detect_faces`, the per-frame orchestration of
`FEREngine.process_frame`, the rolling history of `LiveCameraFER`
(a deque with maxlen 100), and the two statistics functions.

Python dicts are modelled as insertion-ordered association lists (CPython
dicts preserve insertion order), probabilities as rationals, numpy image
buffers as a structure carrying dimensions and a pixel function, and the
external detector/classifier capabilities as explicit parameters.
-/

namespace FER

/-- A Python dict from emotion label to probability, as an insertion-ordered
association list. -/
abbrev Dist := List (String × ℚ)

/-- Lookup of a key in a dict (first match; dict keys are unique at the call
sites in the source). -/
def dictGet : Dist → String → Option ℚ
  | [], _ => none
  | (k, v) :: rest, c => if k = c then some v else dictGet rest c

/-- Model of the Python statement pair from `FEREngine.analyze_emotion`:
`if mapped_emotion in mapped_emotions: mapped_emotions[mapped_emotion] += prob`
`else: mapped_emotions[mapped_emotion] = prob`.
An existing key keeps its position; a new key is appended at the end. -/
def dictUpsertAdd : Dist → String → ℚ → Dist
  | [], k, v => [(k, v)]
  | (k0, v0) :: rest, k, v =>
      if k0 = k then (k0, v0 + v) :: rest else (k0, v0) :: dictUpsertAdd rest k v

/-- Python `sum(d.values())`. -/
def sumValues (d : Dist) : ℚ := (d.map Prod.snd).sum

/-- `FEREngine.emotion_labels`: the detector-native emotion vocabulary. -/
def emotion_labels : List String :=
  ["angry", "disgust", "fear", "happy", "sad", "surprise", "neutral"]

/-- `FEREngine.emotion_mapping`: the raw-to-canonical emotion label table. -/
def emotion_mapping : List (String × String) :=
  [("angry", "anger"), ("disgust", "disgust"), ("fear", "frustration"),
   ("happy", "happy"), ("sad", "sad"), ("surprise", "surprise"),
   ("neutral", "neutral")]

/-- Python `self.emotion_mapping.get(emotion, emotion)`: table lookup with the
raw label itself as the default. -/
def mapLabel (e : String) : String :=
  match emotion_mapping.find? (fun p => p.1 = e) with
  | some p => p.2
  | none => e

/-- The mapping loop of `FEREngine.analyze_emotion` (fer_core.py 86-92):
fold the raw distribution into a fresh dict, adding probabilities of raw
labels that map to the same canonical label. -/
def remap_raw (emotions : Dist) : Dist :=
  emotions.foldl (fun acc p => dictUpsertAdd acc (mapLabel p.1) p.2) []

/-- The mapping-plus-normalization block of `FEREngine.analyze_emotion`
(fer_core.py 86-97): remap, then divide each value by the total mass
`total_prob = sum(mapped_emotions.values())` when it is positive; otherwise
the mapped dict is returned as is. -/
def remap_distribution (emotions : Dist) : Dist :=
  if 0 < sumValues (remap_raw emotions) then
    (remap_raw emotions).map (fun p => (p.1, p.2 / sumValues (remap_raw emotions)))
  else remap_raw emotions

/-- Sum of the raw probabilities whose label maps to canonical label `c`. -/
def msum (d : Dist) (c : String) : ℚ :=
  ((d.filter (fun p => mapLabel p.1 = c)).map Prod.snd).sum

/-- A numpy image buffer: height, width, and a BGR pixel triple at each
(row, col) position. Pixel values outside the h by w bounds are irrelevant
to the pipeline. -/
structure Frame where
  h : Nat
  w : Nat
  px : Nat → Nat → Nat × Nat × Nat

/-- Python int() applied to an exact value: truncation toward zero. -/
def pyInt (q : ℚ) : Int := if 0 ≤ q then ⌊q⌋ else -⌊-q⌋

/-- MediaPipe relative_bounding_box output: coordinates relative to the frame
size, as produced by the external face detector. -/
structure RelBox where
  xmin : ℚ
  ymin : ℚ
  width : ℚ
  height : ℚ

/-- A pixel bounding box (x, y, width, height) as built by detect_faces. -/
abbrev Box := Int × Int × Int × Int

/-- `FEREngine.detect_faces` (fer_core.py 41-60) with the external MediaPipe
detector's output passed in as `dets`: each relative box is scaled by the
frame's width and height and truncated with int(). The source performs no
clamping of any kind. -/
def detect_faces (dets : List RelBox) (frame : Frame) : List Box :=
  dets.map (fun b =>
    (pyInt (b.xmin * (frame.w : ℚ)), pyInt (b.ymin * (frame.h : ℚ)),
     pyInt (b.width * (frame.w : ℚ)), pyInt (b.height * (frame.h : ℚ))))

/-- Membership in the thickness-2 border band painted by cv2.rectangle. -/
def onRectBorder (x y w h i j : Int) : Bool :=
  decide (y ≤ i) && decide (i ≤ y + h) && decide (x ≤ j) && decide (j ≤ x + w) &&
    (decide (i ≤ y + 1) || decide (y + h - 1 ≤ i) ||
     decide (j ≤ x + 1) || decide (x + w - 1 ≤ j))

/-- Model of cv2.rectangle(frame, (x, y), (x+w, y+h), color, 2)
(fer_core.py 131): OpenCV paints the rectangle's border into the numpy array
in place; here the border-band pixels take the given color and every other
pixel is unchanged. OpenCV's exact raster geometry is external to this
repository; what matters for the properties proved here is that border
pixels are recolored and the array's shape is preserved. -/
def cvRectangle (f : Frame) (x y w h : Int) (color : Nat × Nat × Nat) : Frame :=
  { f with px := fun i j =>
      if onRectBorder x y w h (i : Int) (j : Int) then color else f.px i j }

/-- Model of cv2.putText(frame, text, (x, y), ...) (fer_core.py 135 and 141):
OpenCV rasterizes the glyphs into the numpy array in place near the origin
point; the raster footprint is modelled as the single anchor pixel (clipped
when the anchor lies outside the first quadrant). The glyph shapes are
external; what matters here is in-place recoloring near the anchor and shape
preservation, so the text argument is not modelled. -/
def cvPutText (f : Frame) (x y : Int) (color : Nat × Nat × Nat) : Frame :=
  { f with px := fun i j =>
      if 0 ≤ y ∧ 0 ≤ x ∧ i = y.toNat ∧ j = x.toNat then color else f.px i j }

/-- Model of the numpy basic slice frame[y:y+h, x:x+w] (fer_core.py 116) for
nonnegative slice bounds: numpy clamps the start up to 0 and the stop down to
the array extent. (Negative-start wraparound is not exercised by in-bounds
boxes and is not modelled.) -/
def cropFrame (f : Frame) (x y w h : Int) : Frame :=
  { h := (min (y + h) (f.h : Int) - max y 0).toNat,
    w := (min (x + w) (f.w : Int) - max x 0).toNat,
    px := fun i j => f.px (i + (max y 0).toNat) (j + (max x 0).toNat) }

/-- The crop of a frame bounded by a detect_faces box:
face_roi = frame[y:y+h, x:x+w]. -/
def cropOfBox (f : Frame) (b : Box) : Frame :=
  cropFrame f b.1 b.2.1 b.2.2.1 b.2.2.2

/-- `FEREngine.analyze_emotion` (fer_core.py 62-103) with the DeepFace call
abstracted as `classify`: some raw distribution on success (the no-result
path is some of the empty dict, via result.get with default), none when the
external call raises. The except branch returns the empty dict; otherwise
the mapping-plus-normalization block runs on the raw distribution. -/
def analyze_emotion (classify : Frame → Option Dist) (face_img : Frame) : Dist :=
  match classify face_img with
  | none => []
  | some raw => remap_distribution raw

/-- One entry of `FEREngine.process_frame`'s results list (fer_core.py
120-127): the bounding box, the mapped emotion distribution, and the dominant
emotion. -/
structure FaceResult where
  bbox : Box
  emotions : Dist
  dominant_emotion : String
deriving DecidableEq

/-- The scan performed by Python max(..., key=lambda x: x[1]): keep the
current best and replace it only on a strictly greater key, so the first of
several maximal elements wins. -/
def firstMaxAux : (String × ℚ) → Dist → (String × ℚ)
  | best, [] => best
  | best, q :: rest => firstMaxAux (if best.2 < q.2 then q else best) rest

/-- Python max(emotions.items(), key=lambda x: x[1]); none stands for the
empty-iterable case, which the source guards with `if emotions`. -/
def pyMaxPair : Dist → Option (String × ℚ)
  | [] => none
  | p :: rest => some (firstMaxAux p rest)

/-- fer_core.py 127: max(emotions.items(), key=lambda x: x[1])[0] if emotions
else the neutral fallback. -/
def dominantOf (emotions : Dist) : String :=
  match pyMaxPair emotions with
  | some p => p.1
  | none => "neutral"

/-- fer_core.py 139-144: one cv2.putText line per emotion of the
distribution, starting at vertical offset y0 and advancing y_offset by 20
per line, threaded through the frame. The rendered text depends on the
emotion and probability, which the putText footprint model ignores. -/
def drawProbTexts (f : Frame) (x : Int) (y0 : Int) (emotions : Dist) : Frame :=
  (emotions.foldl (fun st _ => (cvPutText st.1 x st.2 (255, 255, 255), st.2 + 20))
    (f, y0)).1

/-- The body of the for-loop of `FEREngine.process_frame` (fer_core.py
114-144) for one face box: crop the current frame, classify the crop, record
the result, then draw the green rectangle, the dominant-emotion text at
(x, y-10), and the probability lines starting at y + h + 20. The cv2 drawing
calls operate in place on the numpy array, which the explicit frame
threading makes visible. -/
def processFace (classify : Frame → Option Dist) (st : Frame × List FaceResult)
    (box : Box) : Frame × List FaceResult :=
  let x := box.1
  let y := box.2.1
  let w := box.2.2.1
  let h := box.2.2.2
  let emotions := analyze_emotion classify (cropOfBox st.1 box)
  let annotated :=
    drawProbTexts
      (cvPutText (cvRectangle st.1 x y w h (0, 255, 0)) x (y - 10) (0, 255, 0))
      x (y + h + 20) emotions
  (annotated, st.2 ++ [⟨box, emotions, dominantOf emotions⟩])

/-- `FEREngine.process_frame` (fer_core.py 105-146): detect faces once on the
input frame, then run the per-face loop, threading the numpy buffer through
the in-place cv2 drawing calls. The frame the source returns is the same
array object the caller passed in, after annotation. -/
def process_frame (classify : Frame → Option Dist) (dets : List RelBox)
    (frame : Frame) : Frame × List FaceResult :=
  (detect_faces dets frame).foldl (processFace classify) (frame, [])

/-- What the caller's frame buffer holds once process_frame returns: the cv2
drawing functions mutate the numpy array in place and the source returns that
same array, so after the call the caller's buffer holds the first component
of the result. -/
def buffer_after_process (classify : Frame → Option Dist) (dets : List RelBox)
    (frame : Frame) : Frame :=
  (process_frame classify dets frame).1

/-- An entry of LiveCameraFER.emotion_history (live_camera_app.py 51-55). -/
structure HistoryEntry where
  emotion : String
  confidence : ℚ
  timestamp : ℚ
deriving DecidableEq

/-- live_camera_app.py 51-55: the history entry appended for one result;
confidence is max(result.emotions.values()) when the distribution is
non-empty and 0 otherwise; the time.time() timestamp is passed in. The
Python max over the values list is the running-maximum fold. -/
def mkHistoryEntry (r : FaceResult) (t : ℚ) : HistoryEntry :=
  ⟨r.dominant_emotion,
   match r.emotions with
   | [] => 0
   | p :: rest => rest.foldl (fun m q => max m q.2) p.2,
   t⟩

/-- Append to LiveCameraFER.emotion_history, a collections.deque with
maxlen 100 (live_camera_app.py 20): when the deque is full, the oldest entry
is discarded from the left as the new entry is appended on the right. -/
def historyAppend (h : List HistoryEntry) (e : HistoryEntry) : List HistoryEntry :=
  if 100 ≤ h.length then h.drop 1 ++ [e] else h ++ [e]

/-- Model of the Python statement
emotion_counts[e] = emotion_counts.get(e, 0) + 1: an existing key keeps its
position and is incremented, a new key is appended with count 1. -/
def bumpCount : List (String × Nat) → String → List (String × Nat)
  | [], e => [(e, 1)]
  | (k, c) :: rest, e =>
      if k = e then (k, c + 1) :: rest else (k, c) :: bumpCount rest e

/-- Lookup in a counting dict. -/
def countGet : List (String × Nat) → String → Option Nat
  | [], _ => none
  | (k, c) :: rest, e => if k = e then some c else countGet rest e

/-- `LiveCameraFER.get_emotion_statistics` (live_camera_app.py 63-79) as a
pure function of the history snapshot: the empty mapping for the empty
history (the `if not self.emotion_history` guard), otherwise occurrence
counts of each entry's emotion divided by the history length. -/
def live_get_emotion_statistics (history : List HistoryEntry) : Dist :=
  if history = [] then []
  else
    (history.foldl (fun acc en => bumpCount acc en.emotion) []).map
      (fun p => (p.1, (p.2 : ℚ) / (history.length : ℚ)))

/-- `FEREngine.get_emotion_statistics` (fer_core.py 148-166): the same
computation keyed on each result's dominant_emotion, with the emptiness
guard written as total_detections == 0. -/
def fer_get_emotion_statistics (results : List FaceResult) : Dist :=
  if results.length = 0 then []
  else
    (results.foldl (fun acc r => bumpCount acc r.dominant_emotion) []).map
      (fun p => (p.1, (p.2 : ℚ) / (results.length : ℚ)))

/-- Specification-side characterization helper: the statistics computed from
a plain list of labels. Both statistics functions reduce to it. -/
def statsOfLabels (labels : List String) : Dist :=
  (labels.foldl bumpCount []).map
    (fun p => (p.1, (p.2 : ℚ) / (labels.length : ℚ)))

/-- Running maximum of the values of a distribution, seeded with b. -/
def vmax (b : ℚ) (l : Dist) : ℚ := l.foldl (fun m p => max m p.2) b

/-- Specification-side helper: the label of the first element of the list
whose value is at least m. -/
def firstWith (m : ℚ) : Dist → Option String
  | [] => none
  | p :: rest => if m ≤ p.2 then some p.1 else firstWith m rest

/-- Specification-side first-argmax: the first label of the distribution
whose value attains the maximum of all values, in iteration order. -/
def firstArgmax (l : Dist) : Option String :=
  match l with
  | [] => none
  | p :: rest => firstWith (vmax p.2 rest) (p :: rest)

/-- A sample raw distribution with positive total mass over three raw
labels. -/
def exRaw : Dist := [("fear", (1 : ℚ) / 2), ("angry", (1 : ℚ) / 4), ("happy", (1 : ℚ) / 4)]

/-- A concrete 100 by 100 all-black frame. -/
def exFrame : Frame := ⟨100, 100, fun _ _ => (0, 0, 0)⟩

/-- A detector output whose scaled box is (10, 10, 20, 20) on exFrame. -/
def exDet : RelBox := ⟨1 / 10, 1 / 10, 1 / 5, 1 / 5⟩

/-- A detector output whose scaled box is (50, 50, 30, 30) on exFrame. -/
def exDet2 : RelBox := ⟨1 / 2, 1 / 2, 3 / 10, 3 / 10⟩

/-- A detector output with a negative relative xmin, as MediaPipe can emit
for a face partially outside the frame. -/
def exDetNeg : RelBox := ⟨-(1 / 10), 1 / 10, 1 / 5, 1 / 5⟩

/-- A classifier stub that always fails (the DeepFace call raises). -/
def exClassifyNone : Frame → Option Dist := fun _ => none

/-- A classifier stub that succeeds exactly on crops of width 20. -/
def exClassifyW : Frame → Option Dist :=
  fun c => if c.w = 20 then some [("happy", (1 : ℚ))] else none

/-- A classifier stub that always returns a fixed two-label distribution. -/
def exClassifyTwo : Frame → Option Dist :=
  fun _ => some [("happy", (1 : ℚ) / 2), ("sad", (1 : ℚ) / 2)]

/-- A ten-entry history: six happy entries then four sad entries. -/
def exHistory10 : List HistoryEntry :=
  List.replicate 6 ⟨"happy", 1, 0⟩ ++ List.replicate 4 ⟨"sad", 1, 0⟩

theorem sumValues_nil : sumValues [] = 0 := rfl

theorem sumValues_cons (p : String × ℚ) (d : Dist) :
    sumValues (p :: d) = p.2 + sumValues d := by
  simp [sumValues]

theorem sumValues_upsert (d : Dist) (k : String) (v : ℚ) :
    sumValues (dictUpsertAdd d k v) = sumValues d + v := by
  induction d with
  | nil => simp [dictUpsertAdd, sumValues]
  | cons p rest ih =>
      obtain ⟨k0, v0⟩ := p
      by_cases h : k0 = k
      · simp [dictUpsertAdd, h, sumValues_cons]
        ring
      · simp [dictUpsertAdd, h, sumValues_cons, ih]
        ring

theorem dictGet_upsert (d : Dist) (k : String) (v : ℚ) (c : String) :
    dictGet (dictUpsertAdd d k v) c =
      if c = k then some ((dictGet d c).getD 0 + v) else dictGet d c := by
  induction d with
  | nil =>
      by_cases h : c = k
      · subst h; simp [dictUpsertAdd, dictGet]
      · have h' : ¬ k = c := fun hh => h hh.symm
        simp [dictUpsertAdd, dictGet, h, h']
  | cons p rest ih =>
      obtain ⟨k0, v0⟩ := p
      by_cases h0 : k0 = k
      · subst h0
        by_cases hc : k0 = c
        · subst hc
          simp [dictUpsertAdd, dictGet]
        · have hck : ¬ c = k0 := fun hh => hc hh.symm
          simp [dictUpsertAdd, dictGet, hc, hck]
      · by_cases hc : k0 = c
        · subst hc
          simp [dictUpsertAdd, dictGet, h0]
        · simp [dictUpsertAdd, dictGet, h0, hc, ih]

theorem msum_nil (c : String) : msum [] c = 0 := rfl

theorem msum_cons (p : String × ℚ) (d : Dist) (c : String) :
    msum (p :: d) c = if mapLabel p.1 = c then p.2 + msum d c else msum d c := by
  by_cases h : mapLabel p.1 = c
  · simp [msum, List.filter_cons, h]
  · simp [msum, List.filter_cons, h]

theorem remap_fold_get (d : Dist) :
    ∀ (acc : Dist) (c : String),
      dictGet (d.foldl (fun a p => dictUpsertAdd a (mapLabel p.1) p.2) acc) c =
        if (dictGet acc c).isSome = true ∨ (∃ p ∈ d, mapLabel p.1 = c) then
          some ((dictGet acc c).getD 0 + msum d c)
        else none := by
  induction d with
  | nil =>
      intro acc c
      cases h : dictGet acc c with
      | none => simp [h, msum_nil]
      | some v => simp [h, msum_nil]
  | cons p rest ih =>
      intro acc c
      have step :
          (p :: rest).foldl (fun a q => dictUpsertAdd a (mapLabel q.1) q.2) acc =
            rest.foldl (fun a q => dictUpsertAdd a (mapLabel q.1) q.2)
              (dictUpsertAdd acc (mapLabel p.1) p.2) := rfl
      rw [step, ih]
      rw [dictGet_upsert]
      by_cases hc : c = mapLabel p.1
      · subst hc
        simp [msum_cons, add_assoc]
      · have hc' : ¬ mapLabel p.1 = c := fun h => hc h.symm
        have hex : (∃ q ∈ (p :: rest), mapLabel q.1 = c) ↔ ∃ q ∈ rest, mapLabel q.1 = c := by
          constructor
          · rintro ⟨q, hq, hq2⟩
            rcases List.mem_cons.mp hq with h1 | h1
            · exact absurd (h1 ▸ hq2) hc'
            · exact ⟨q, h1, hq2⟩
          · rintro ⟨q, hq, hq2⟩
            exact ⟨q, List.mem_cons_of_mem _ hq, hq2⟩
        rw [if_neg hc, msum_cons, if_neg hc']
        exact if_congr (or_congr Iff.rfl hex.symm) rfl rfl

theorem remap_raw_get (d : Dist) (c : String) :
    dictGet (remap_raw d) c =
      if ∃ p ∈ d, mapLabel p.1 = c then some (msum d c) else none := by
  rw [remap_raw, remap_fold_get]
  have h1 : dictGet [] c = none := rfl
  rw [h1]
  have h2 : ((none : Option ℚ).isSome = true ∨ ∃ p ∈ d, mapLabel p.1 = c) ↔
      (∃ p ∈ d, mapLabel p.1 = c) := by
    constructor
    · rintro (h | h)
      · simp at h
      · exact h
    · exact Or.inr
  rw [if_congr h2 rfl rfl]
  simp

theorem remap_fold_sum (d : Dist) :
    ∀ acc : Dist,
      sumValues (d.foldl (fun a p => dictUpsertAdd a (mapLabel p.1) p.2) acc) =
        sumValues acc + sumValues d := by
  induction d with
  | nil => intro acc; simp [sumValues_nil]
  | cons p rest ih =>
      intro acc
      have step :
          (p :: rest).foldl (fun a q => dictUpsertAdd a (mapLabel q.1) q.2) acc =
            rest.foldl (fun a q => dictUpsertAdd a (mapLabel q.1) q.2)
              (dictUpsertAdd acc (mapLabel p.1) p.2) := rfl
      rw [step, ih, sumValues_upsert, sumValues_cons]
      ring

theorem remap_raw_sum (d : Dist) : sumValues (remap_raw d) = sumValues d := by
  have h := remap_fold_sum d []
  simpa [remap_raw, sumValues_nil] using h

theorem dictGet_map_div (l : Dist) (t : ℚ) (c : String) :
    dictGet (l.map (fun p => (p.1, p.2 / t))) c = (dictGet l c).map (fun v => v / t) := by
  induction l with
  | nil => simp [dictGet]
  | cons p rest ih =>
      by_cases h : p.1 = c
      · simp [dictGet, h]
      · simp [dictGet, h, ih]

theorem sumValues_map_div (l : Dist) (t : ℚ) :
    sumValues (l.map (fun p => (p.1, p.2 / t))) = sumValues l / t := by
  induction l with
  | nil => simp [sumValues]
  | cons p rest ih =>
      simp [sumValues_cons, ih, add_div]

theorem dictUpsertAdd_ne_nil (d : Dist) (k : String) (v : ℚ) :
    dictUpsertAdd d k v ≠ [] := by
  cases d with
  | nil => simp [dictUpsertAdd]
  | cons p rest =>
      obtain ⟨k0, v0⟩ := p
      by_cases h : k0 = k <;> simp [dictUpsertAdd, h]

theorem remap_fold_ne_nil (d : Dist) :
    ∀ acc : Dist, acc ≠ [] →
      d.foldl (fun a p => dictUpsertAdd a (mapLabel p.1) p.2) acc ≠ [] := by
  induction d with
  | nil => intro acc h; simpa using h
  | cons p rest ih =>
      intro acc _
      exact ih (dictUpsertAdd acc (mapLabel p.1) p.2) (dictUpsertAdd_ne_nil _ _ _)

theorem remap_raw_eq_nil_iff (d : Dist) : remap_raw d = [] ↔ d = [] := by
  constructor
  · intro h
    cases d with
    | nil => rfl
    | cons p rest =>
        exfalso
        have hne := remap_fold_ne_nil rest
          (dictUpsertAdd [] (mapLabel p.1) p.2) (dictUpsertAdd_ne_nil _ _ _)
        exact hne h
  · intro h; subst h; rfl

/-- Claim C2: `remap_distribution` applies the label map to every key, sums the
probabilities of raw labels that map to the same canonical label, and divides
by the total mass; for every raw distribution with positive total mass, each
canonical label's output value is the merged raw mass divided by the total,
and the output values sum to exactly 1 over the rationals. -/
theorem C2_remap_normalizes (raw : Dist) (hpos : 0 < sumValues raw) :
    (∀ c, dictGet (remap_distribution raw) c =
        if ∃ p ∈ raw, mapLabel p.1 = c then some (msum raw c / sumValues raw)
        else none) ∧
    sumValues (remap_distribution raw) = 1 := by
  have htot : sumValues (remap_raw raw) = sumValues raw := remap_raw_sum raw
  have hpos' : 0 < sumValues (remap_raw raw) := by rw [htot]; exact hpos
  constructor
  · intro c
    simp only [remap_distribution]
    rw [if_pos hpos', dictGet_map_div, remap_raw_get, htot]
    by_cases h : ∃ p ∈ raw, mapLabel p.1 = c
    · rw [if_pos h, if_pos h]; rfl
    · rw [if_neg h, if_neg h]; rfl
  · simp only [remap_distribution]
    rw [if_pos hpos', sumValues_map_div, htot, div_self (ne_of_gt hpos)]

/-- Witness for C2 at a concrete raw distribution of positive mass. -/
theorem C2_remap_normalizes_witness :
    0 < sumValues exRaw ∧
    ((∀ c, dictGet (remap_distribution exRaw) c =
        if ∃ p ∈ exRaw, mapLabel p.1 = c then some (msum exRaw c / sumValues exRaw)
        else none) ∧
      sumValues (remap_distribution exRaw) = 1) :=
  ⟨by norm_num [sumValues, exRaw], C2_remap_normalizes exRaw (by norm_num [sumValues, exRaw])⟩

/-- Claim C3 counterexample: on the all-zero raw distribution over the single
raw label happy (total mass 0), the code skips normalization and returns the
mapped dict unchanged, which still contains the key happy: the result is not
the empty distribution. -/
theorem C3_counterexample :
    remap_distribution [("happy", (0 : ℚ))] = [("happy", 0)] ∧
    remap_distribution [("happy", (0 : ℚ))] ≠ [] := by
  have hr : remap_raw [("happy", (0 : ℚ))] = [("happy", 0)] := rfl
  have h0 : sumValues (remap_raw [("happy", (0 : ℚ))]) = 0 := by
    rw [hr]; simp [sumValues]
  have hd : remap_distribution [("happy", (0 : ℚ))] = [("happy", 0)] := by
    simp only [remap_distribution]
    rw [h0, if_neg (lt_irrefl 0), hr]
  exact ⟨hd, by rw [hd]; simp⟩

/-- Claim C3 amended: for every raw distribution whose total probability mass
is 0, `remap_distribution` returns the mapped distribution without
normalization; it is the empty distribution exactly when the raw input itself
is empty (an all-zero non-empty input keeps its mapped keys with zero
values). -/
theorem C3_zero_mass_amended (raw : Dist) (h : sumValues raw = 0) :
    remap_distribution raw = remap_raw raw ∧
    (remap_distribution raw = [] ↔ raw = []) := by
  have h' : ¬ 0 < sumValues (remap_raw raw) := by
    rw [remap_raw_sum, h]; exact lt_irrefl 0
  have he : remap_distribution raw = remap_raw raw := by
    simp only [remap_distribution]; rw [if_neg h']
  exact ⟨he, by rw [he]; exact remap_raw_eq_nil_iff raw⟩

/-- Witness for the amended C3 at the all-zero singleton distribution. -/
theorem C3_zero_mass_amended_witness :
    sumValues [("happy", (0 : ℚ))] = 0 ∧
    (remap_distribution [("happy", (0 : ℚ))] = remap_raw [("happy", (0 : ℚ))] ∧
      (remap_distribution [("happy", (0 : ℚ))] = [] ↔ [("happy", (0 : ℚ))] = ([] : Dist))) :=
  ⟨by simp [sumValues], C3_zero_mass_amended [("happy", (0 : ℚ))] (by simp [sumValues])⟩

/-- Claim C4: the label map sends fear to frustration and angry to anger,
fixes the five other native labels, and passes any label outside the native
vocabulary through unchanged. -/
theorem C4_label_map_total (s : String) (hs : s ∉ emotion_labels) :
    mapLabel "fear" = "frustration" ∧ mapLabel "angry" = "anger" ∧
    (∀ t ∈ (["disgust", "happy", "sad", "surprise", "neutral"] : List String),
      mapLabel t = t) ∧
    mapLabel s = s := by
  refine ⟨by decide, by decide, by decide, ?_⟩
  have hfind : emotion_mapping.find? (fun p => p.1 = s) = none := by
    rw [List.find?_eq_none]
    intro p hp
    have hmem : p.1 ∈ emotion_labels := by
      fin_cases hp <;> decide
    simp only [decide_eq_true_eq]
    intro hps
    exact hs (hps ▸ hmem)
  unfold mapLabel
  rw [hfind]

/-- Witness for C4 at a label outside the native vocabulary. -/
theorem C4_label_map_total_witness :
    ("contempt" : String) ∉ emotion_labels ∧
    (mapLabel "fear" = "frustration" ∧ mapLabel "angry" = "anger" ∧
      (∀ t ∈ (["disgust", "happy", "sad", "surprise", "neutral"] : List String),
        mapLabel t = t) ∧
      mapLabel "contempt" = "contempt") :=
  ⟨by decide, C4_label_map_total "contempt" (by decide)⟩

theorem pyInt_of_nonneg (q : ℚ) (h : 0 ≤ q) : pyInt q = ⌊q⌋ := if_pos h

theorem pyInt_intCast (n : ℤ) : pyInt ((n : ℚ)) = n := by
  by_cases h : (0 : ℚ) ≤ (n : ℚ)
  · rw [pyInt_of_nonneg _ h, Int.floor_intCast]
  · rw [pyInt, if_neg h, ← Int.cast_neg, Int.floor_intCast, neg_neg]

theorem pyInt_arg_nonneg (q : ℚ) (h : 1 ≤ pyInt q) : 0 ≤ q := by
  by_contra hneg
  push_neg at hneg
  rw [pyInt, if_neg (not_le.mpr hneg)] at h
  have h3 : (0 : ℤ) ≤ ⌊-q⌋ := Int.floor_nonneg.mpr (by linarith)
  omega

theorem exDet_boxes : detect_faces [exDet] exFrame = [(10, 10, 20, 20)] := by
  simp only [detect_faces, List.map_cons, List.map_nil]
  have e1 : exDet.xmin * ((exFrame.w : ℚ)) = ((10 : ℤ) : ℚ) := by
    norm_num [exDet, exFrame]
  have e2 : exDet.ymin * ((exFrame.h : ℚ)) = ((10 : ℤ) : ℚ) := by
    norm_num [exDet, exFrame]
  have e3 : exDet.width * ((exFrame.w : ℚ)) = ((20 : ℤ) : ℚ) := by
    norm_num [exDet, exFrame]
  have e4 : exDet.height * ((exFrame.h : ℚ)) = ((20 : ℤ) : ℚ) := by
    norm_num [exDet, exFrame]
  rw [e1, e2, e3, e4]
  simp only [pyInt_intCast]

theorem exDetTwo_boxes :
    detect_faces [exDet, exDet2] exFrame = [(10, 10, 20, 20), (50, 50, 30, 30)] := by
  simp only [detect_faces, List.map_cons, List.map_nil]
  have e1 : exDet.xmin * ((exFrame.w : ℚ)) = ((10 : ℤ) : ℚ) := by
    norm_num [exDet, exFrame]
  have e2 : exDet.ymin * ((exFrame.h : ℚ)) = ((10 : ℤ) : ℚ) := by
    norm_num [exDet, exFrame]
  have e3 : exDet.width * ((exFrame.w : ℚ)) = ((20 : ℤ) : ℚ) := by
    norm_num [exDet, exFrame]
  have e4 : exDet.height * ((exFrame.h : ℚ)) = ((20 : ℤ) : ℚ) := by
    norm_num [exDet, exFrame]
  have f1 : exDet2.xmin * ((exFrame.w : ℚ)) = ((50 : ℤ) : ℚ) := by
    norm_num [exDet2, exFrame]
  have f2 : exDet2.ymin * ((exFrame.h : ℚ)) = ((50 : ℤ) : ℚ) := by
    norm_num [exDet2, exFrame]
  have f3 : exDet2.width * ((exFrame.w : ℚ)) = ((30 : ℤ) : ℚ) := by
    norm_num [exDet2, exFrame]
  have f4 : exDet2.height * ((exFrame.h : ℚ)) = ((30 : ℤ) : ℚ) := by
    norm_num [exDet2, exFrame]
  rw [e1, e2, e3, e4, f1, f2, f3, f4]
  simp only [pyInt_intCast]

theorem exDetNeg_boxes : detect_faces [exDetNeg] exFrame = [(-10, 10, 20, 20)] := by
  simp only [detect_faces, List.map_cons, List.map_nil]
  have e1 : exDetNeg.xmin * ((exFrame.w : ℚ)) = ((-10 : ℤ) : ℚ) := by
    norm_num [exDetNeg, exFrame]
  have e2 : exDetNeg.ymin * ((exFrame.h : ℚ)) = ((10 : ℤ) : ℚ) := by
    norm_num [exDetNeg, exFrame]
  have e3 : exDetNeg.width * ((exFrame.w : ℚ)) = ((20 : ℤ) : ℚ) := by
    norm_num [exDetNeg, exFrame]
  have e4 : exDetNeg.height * ((exFrame.h : ℚ)) = ((20 : ℤ) : ℚ) := by
    norm_num [exDetNeg, exFrame]
  rw [e1, e2, e3, e4]
  simp only [pyInt_intCast]

/-- Claim C9 counterexample: for a detector output with relative xmin -1/10
on the 100 by 100 frame, detect_faces returns the box (-10, 10, 20, 20),
whose x coordinate is negative (and which extends outside the frame): the
code performs no clamping of the detector's coordinates. -/
theorem C9_counterexample :
    detect_faces [exDetNeg] exFrame = [(-10, 10, 20, 20)] ∧ ¬ (0 ≤ (-10 : Int)) :=
  ⟨exDetNeg_boxes, by decide⟩

/-- Claim C9 amended: detect_faces performs no clamping, so the claimed box
invariant holds only when the detector's relative box already lies within
the unit square (nonnegative offsets, xmin + width ≤ 1, ymin + height ≤ 1)
and its scaled extents span at least one pixel; under those conditions each
returned box has nonnegative x and y, positive width and height, and lies
within the frame's pixel bounds. -/
theorem C9_boxes_amended (dets : List RelBox) (frame : Frame)
    (hdets : ∀ b ∈ dets,
      0 ≤ b.xmin ∧ 0 ≤ b.ymin ∧ b.xmin + b.width ≤ 1 ∧ b.ymin + b.height ≤ 1 ∧
      1 ≤ pyInt (b.width * ((frame.w : ℚ))) ∧ 1 ≤ pyInt (b.height * ((frame.h : ℚ)))) :
    ∀ box ∈ detect_faces dets frame,
      0 ≤ box.1 ∧ 0 ≤ box.2.1 ∧ 0 < box.2.2.1 ∧ 0 < box.2.2.2 ∧
      box.1 + box.2.2.1 ≤ (frame.w : Int) ∧ box.2.1 + box.2.2.2 ≤ (frame.h : Int) := by
  intro box hbox
  rw [detect_faces, List.mem_map] at hbox
  obtain ⟨b, hb, rfl⟩ := hbox
  obtain ⟨h1, h2, h3, h4, h5, h6⟩ := hdets b hb
  have hw0 : (0 : ℚ) ≤ ((frame.w : ℚ)) := Nat.cast_nonneg _
  have hh0 : (0 : ℚ) ≤ ((frame.h : ℚ)) := Nat.cast_nonneg _
  have hx0 : (0 : ℚ) ≤ b.xmin * ((frame.w : ℚ)) := mul_nonneg h1 hw0
  have hy0 : (0 : ℚ) ≤ b.ymin * ((frame.h : ℚ)) := mul_nonneg h2 hh0
  have hbw0 : (0 : ℚ) ≤ b.width * ((frame.w : ℚ)) := pyInt_arg_nonneg _ h5
  have hbh0 : (0 : ℚ) ≤ b.height * ((frame.h : ℚ)) := pyInt_arg_nonneg _ h6
  refine ⟨?_, ?_, ?_, ?_, ?_, ?_⟩
  · rw [pyInt_of_nonneg _ hx0]
    exact Int.floor_nonneg.mpr hx0
  · rw [pyInt_of_nonneg _ hy0]
    exact Int.floor_nonneg.mpr hy0
  · exact lt_of_lt_of_le zero_lt_one h5
  · exact lt_of_lt_of_le zero_lt_one h6
  · rw [pyInt_of_nonneg _ hx0, pyInt_of_nonneg _ hbw0]
    have hsum : b.xmin * ((frame.w : ℚ)) + b.width * ((frame.w : ℚ)) ≤ ((frame.w : ℚ)) := by
      have hmul := mul_le_mul_of_nonneg_right h3 hw0
      rw [add_mul, one_mul] at hmul
      exact hmul
    have hfl : ⌊b.xmin * ((frame.w : ℚ))⌋ + ⌊b.width * ((frame.w : ℚ))⌋ ≤
        ⌊b.xmin * ((frame.w : ℚ)) + b.width * ((frame.w : ℚ))⌋ := by
      apply Int.le_floor.mpr
      push_cast
      exact add_le_add (Int.floor_le _) (Int.floor_le _)
    calc ⌊b.xmin * ((frame.w : ℚ))⌋ + ⌊b.width * ((frame.w : ℚ))⌋
        ≤ ⌊b.xmin * ((frame.w : ℚ)) + b.width * ((frame.w : ℚ))⌋ := hfl
      _ ≤ ⌊((frame.w : ℚ))⌋ := Int.floor_le_floor hsum
      _ = (frame.w : Int) := Int.floor_natCast _
  · rw [pyInt_of_nonneg _ hy0, pyInt_of_nonneg _ hbh0]
    have hsum : b.ymin * ((frame.h : ℚ)) + b.height * ((frame.h : ℚ)) ≤ ((frame.h : ℚ)) := by
      have hmul := mul_le_mul_of_nonneg_right h4 hh0
      rw [add_mul, one_mul] at hmul
      exact hmul
    have hfl : ⌊b.ymin * ((frame.h : ℚ))⌋ + ⌊b.height * ((frame.h : ℚ))⌋ ≤
        ⌊b.ymin * ((frame.h : ℚ)) + b.height * ((frame.h : ℚ))⌋ := by
      apply Int.le_floor.mpr
      push_cast
      exact add_le_add (Int.floor_le _) (Int.floor_le _)
    calc ⌊b.ymin * ((frame.h : ℚ))⌋ + ⌊b.height * ((frame.h : ℚ))⌋
        ≤ ⌊b.ymin * ((frame.h : ℚ)) + b.height * ((frame.h : ℚ))⌋ := hfl
      _ ≤ ⌊((frame.h : ℚ))⌋ := Int.floor_le_floor hsum
      _ = (frame.h : Int) := Int.floor_natCast _

/-- Witness for the amended C9 at a concrete in-bounds detector output. -/
theorem C9_boxes_amended_witness :
    (∀ b ∈ [exDet],
      0 ≤ b.xmin ∧ 0 ≤ b.ymin ∧ b.xmin + b.width ≤ 1 ∧ b.ymin + b.height ≤ 1 ∧
      1 ≤ pyInt (b.width * ((exFrame.w : ℚ))) ∧ 1 ≤ pyInt (b.height * ((exFrame.h : ℚ)))) ∧
    ((10 : Int), (10 : Int), (20 : Int), (20 : Int)) ∈ detect_faces [exDet] exFrame ∧
    (0 ≤ (10 : Int) ∧ 0 ≤ (10 : Int) ∧ 0 < (20 : Int) ∧ 0 < (20 : Int) ∧
      (10 : Int) + 20 ≤ (exFrame.w : Int) ∧ (10 : Int) + 20 ≤ (exFrame.h : Int)) := by
  have e3 : exDet.width * ((exFrame.w : ℚ)) = ((20 : ℤ) : ℚ) := by
    norm_num [exDet, exFrame]
  have e4 : exDet.height * ((exFrame.h : ℚ)) = ((20 : ℤ) : ℚ) := by
    norm_num [exDet, exFrame]
  have hdets : ∀ b ∈ [exDet],
      0 ≤ b.xmin ∧ 0 ≤ b.ymin ∧ b.xmin + b.width ≤ 1 ∧ b.ymin + b.height ≤ 1 ∧
      1 ≤ pyInt (b.width * ((exFrame.w : ℚ))) ∧
      1 ≤ pyInt (b.height * ((exFrame.h : ℚ))) := by
    intro b hb
    rw [List.mem_singleton] at hb
    subst hb
    refine ⟨by norm_num [exDet], by norm_num [exDet], by norm_num [exDet],
      by norm_num [exDet], ?_, ?_⟩
    · rw [e3, pyInt_intCast]; omega
    · rw [e4, pyInt_intCast]; omega
  have hmem : ((10 : Int), (10 : Int), (20 : Int), (20 : Int)) ∈
      detect_faces [exDet] exFrame := by
    rw [exDet_boxes]; exact List.mem_singleton.mpr rfl
  exact ⟨hdets, hmem, C9_boxes_amended [exDet] exFrame hdets _ hmem⟩

/-- Claim C1 counterexample: processing the all-black 100 by 100 frame with
one detected face box (10, 10, 20, 20) recolors the border pixel at row 10,
column 10 of the caller's buffer (cv2.rectangle draws in place and the
source returns the same array), so the input frame's pixel contents are not
unchanged after the call. -/
theorem C1_counterexample :
    (buffer_after_process exClassifyNone [exDet] exFrame).px 10 10 ≠ exFrame.px 10 10 := by
  have h : buffer_after_process exClassifyNone [exDet] exFrame =
      (List.foldl (processFace exClassifyNone) (exFrame, []) [(10, 10, 20, 20)]).1 := by
    rw [buffer_after_process, process_frame, exDet_boxes]
  rw [h]
  decide

/-- Claim C1 amended: process_frame annotates the caller's frame buffer in
place and returns that same buffer together with the results; the buffer's
pixel contents are guaranteed unchanged only when no faces are detected, in
which case the call returns the input frame itself and an empty result
list. -/
theorem C1_in_place_amended (classify : Frame → Option Dist) (frame : Frame) :
    process_frame classify [] frame = (frame, []) ∧
    buffer_after_process classify [] frame = frame :=
  ⟨rfl, rfl⟩

theorem processFace_snd (classify : Frame → Option Dist) (st : Frame × List FaceResult)
    (box : Box) :
    (processFace classify st box).2 =
      st.2 ++ [⟨box, analyze_emotion classify (cropOfBox st.1 box),
                dominantOf (analyze_emotion classify (cropOfBox st.1 box))⟩] := rfl

theorem processFace_fst (classify : Frame → Option Dist) (st : Frame × List FaceResult)
    (box : Box) :
    (processFace classify st box).1 =
      drawProbTexts
        (cvPutText (cvRectangle st.1 box.1 box.2.1 box.2.2.1 box.2.2.2 (0, 255, 0))
          box.1 (box.2.1 - 10) (0, 255, 0))
        box.1 (box.2.1 + box.2.2.2 + 20)
        (analyze_emotion classify (cropOfBox st.1 box)) := rfl

theorem drawProb_fold_w (x : Int) (emotions : Dist) :
    ∀ st : Frame × Int,
      ((emotions.foldl (fun s _ => (cvPutText s.1 x s.2 (255, 255, 255), s.2 + 20)) st).1).w
        = st.1.w := by
  induction emotions with
  | nil => intro st; rfl
  | cons p rest ih =>
      intro st
      rw [List.foldl_cons, ih]
      rfl

theorem drawProbTexts_w (f : Frame) (x y0 : Int) (emotions : Dist) :
    (drawProbTexts f x y0 emotions).w = f.w :=
  drawProb_fold_w x emotions (f, y0)

theorem processFace_fst_w (classify : Frame → Option Dist) (st : Frame × List FaceResult)
    (box : Box) : (processFace classify st box).1.w = st.1.w := by
  rw [processFace_fst, drawProbTexts_w]
  rfl

theorem remap_distribution_eq_nil_iff (d : Dist) :
    remap_distribution d = [] ↔ d = [] := by
  by_cases h : 0 < sumValues (remap_raw d)
  · simp only [remap_distribution, if_pos h]
    rw [List.map_eq_nil_iff]
    exact remap_raw_eq_nil_iff d
  · simp only [remap_distribution, if_neg h]
    exact remap_raw_eq_nil_iff d

/-- Claim C5: a classifier failure yields the empty distribution without
propagating (analyze_emotion absorbs it), and when the first of two detected
faces classifies successfully while the second fails, process_frame still
returns one FaceResult per detected face: the succeeding face carries a
non-empty mapped distribution and the failing face carries empty emotions
with dominant neutral; processing is total, so nothing is raised. -/
theorem C5_failure_absorbed (classify : Frame → Option Dist)
    (frame : Frame) (dets : List RelBox) (b1 b2 : Box) (raw1 : Dist)
    (hdet : detect_faces dets frame = [b1, b2])
    (hc1 : classify (cropOfBox frame b1) = some raw1)
    (hne : remap_distribution raw1 ≠ [])
    (hc2 : classify (cropOfBox (processFace classify (frame, []) b1).1 b2) = none) :
    (∀ crop, classify crop = none → analyze_emotion classify crop = []) ∧
    (process_frame classify dets frame).2 =
      [⟨b1, remap_distribution raw1, dominantOf (remap_distribution raw1)⟩,
       ⟨b2, [], "neutral"⟩] ∧
    remap_distribution raw1 ≠ [] := by
  refine ⟨?_, ?_, hne⟩
  · intro crop hc
    simp only [analyze_emotion, hc]
  · have e1 : analyze_emotion classify (cropOfBox frame b1) = remap_distribution raw1 := by
      simp only [analyze_emotion, hc1]
    have e2 : analyze_emotion classify
        (cropOfBox (processFace classify (frame, []) b1).1 b2) = [] := by
      simp only [analyze_emotion, hc2]
    have hgoal : (process_frame classify dets frame).2 =
        (processFace classify (processFace classify (frame, []) b1) b2).2 := by
      rw [process_frame, hdet]
      rfl
    rw [hgoal, processFace_snd, processFace_snd]
    dsimp only
    rw [e1, e2]
    rfl

/-- Witness for C5 with two detected faces on the black frame, where the
classifier stub succeeds on the first crop (width 20) and fails on the
second (width 30). -/
theorem C5_failure_absorbed_witness :
    detect_faces [exDet, exDet2] exFrame = [(10, 10, 20, 20), (50, 50, 30, 30)] ∧
    exClassifyW (cropOfBox exFrame (10, 10, 20, 20)) = some [("happy", (1 : ℚ))] ∧
    remap_distribution [("happy", (1 : ℚ))] ≠ [] ∧
    exClassifyW (cropOfBox
      (processFace exClassifyW (exFrame, []) (10, 10, 20, 20)).1 (50, 50, 30, 30)) = none ∧
    ((∀ crop, exClassifyW crop = none → analyze_emotion exClassifyW crop = []) ∧
      (process_frame exClassifyW [exDet, exDet2] exFrame).2 =
        [⟨(10, 10, 20, 20), remap_distribution [("happy", (1 : ℚ))],
          dominantOf (remap_distribution [("happy", (1 : ℚ))])⟩,
         ⟨(50, 50, 30, 30), [], "neutral"⟩] ∧
      remap_distribution [("happy", (1 : ℚ))] ≠ []) := by
  have hdet := exDetTwo_boxes
  have hc1 : exClassifyW (cropOfBox exFrame (10, 10, 20, 20)) = some [("happy", (1 : ℚ))] := by
    decide
  have hne : remap_distribution [("happy", (1 : ℚ))] ≠ [] := by
    rw [Ne, remap_distribution_eq_nil_iff]
    simp
  have h100 : (processFace exClassifyW (exFrame, ([] : List FaceResult))
      (10, 10, 20, 20)).1.w = 100 := by
    rw [processFace_fst_w]
    rfl
  have hc2 : exClassifyW (cropOfBox
      (processFace exClassifyW (exFrame, []) (10, 10, 20, 20)).1 (50, 50, 30, 30)) = none := by
    have hcw : (cropOfBox
        (processFace exClassifyW (exFrame, []) (10, 10, 20, 20)).1 (50, 50, 30, 30)).w
        = 30 := by
      simp only [cropOfBox, cropFrame, h100]
      decide
    simp only [exClassifyW]
    rw [hcw]
    decide
  exact ⟨hdet, hc1, hne, hc2,
    C5_failure_absorbed exClassifyW exFrame [exDet, exDet2] _ _ _ hdet hc1 hne hc2⟩

theorem vmax_cons (b : ℚ) (q : String × ℚ) (l : Dist) :
    vmax b (q :: l) = vmax (max b q.2) l := rfl

theorem le_vmax (b : ℚ) (l : Dist) : b ≤ vmax b l := by
  induction l generalizing b with
  | nil => exact le_refl b
  | cons q rest ih =>
      rw [vmax_cons]
      exact le_trans (le_max_left b q.2) (ih (max b q.2))

theorem firstMaxAux_spec (l : Dist) :
    ∀ best : String × ℚ,
      firstWith (vmax best.2 l) (best :: l) = some (firstMaxAux best l).1 := by
  induction l with
  | nil =>
      intro best
      have hv : vmax best.2 [] = best.2 := rfl
      simp only [firstWith, firstMaxAux, hv, if_pos (le_refl best.2)]
  | cons p rest ih =>
      intro best
      by_cases h : best.2 < p.2
      · have hb : firstMaxAux best (p :: rest) = firstMaxAux p rest := by
          simp [firstMaxAux, h]
        have hm : vmax best.2 (p :: rest) = vmax p.2 rest := by
          rw [vmax_cons, max_eq_right (le_of_lt h)]
        have hskip : ¬ vmax best.2 (p :: rest) ≤ best.2 := by
          rw [hm]
          intro hle
          exact absurd (lt_of_lt_of_le h (le_vmax p.2 rest)) (not_lt.mpr hle)
        rw [hb, ← ih p, ← hm]
        simp only [firstWith]
        rw [if_neg hskip]
      · have hple : p.2 ≤ best.2 := not_lt.mp h
        have hb : firstMaxAux best (p :: rest) = firstMaxAux best rest := by
          simp [firstMaxAux, h]
        have hm : vmax best.2 (p :: rest) = vmax best.2 rest := by
          rw [vmax_cons, max_eq_left hple]
        rw [hb, ← ih best, hm]
        by_cases hbm : vmax best.2 rest ≤ best.2
        · simp only [firstWith]
          rw [if_pos hbm, if_pos hbm]
        · have h2 : ¬ vmax best.2 rest ≤ p.2 := fun hle => hbm (le_trans hle hple)
          simp only [firstWith]
          rw [if_neg hbm, if_neg hbm, if_neg h2]

theorem dominantOf_eq_firstArgmax (l : Dist) :
    dominantOf l = (firstArgmax l).getD "neutral" := by
  cases l with
  | nil => rfl
  | cons p rest =>
      simp only [dominantOf, pyMaxPair, firstArgmax]
      rw [firstMaxAux_spec rest p]
      rfl

theorem process_frame_shape (classify : Frame → Option Dist) :
    ∀ (boxes : List Box) (f : Frame) (acc : List FaceResult),
      (∀ r ∈ acc, r.dominant_emotion = dominantOf r.emotions) →
      ∀ r ∈ (boxes.foldl (processFace classify) (f, acc)).2,
        r.dominant_emotion = dominantOf r.emotions := by
  intro boxes
  induction boxes with
  | nil =>
      intro f acc hacc r hr
      exact hacc r hr
  | cons b rest ih =>
      intro f acc hacc r hr
      rw [List.foldl_cons] at hr
      have hacc' : ∀ r' ∈ (processFace classify (f, acc) b).2,
          r'.dominant_emotion = dominantOf r'.emotions := by
        intro r' hr'
        rw [processFace_snd] at hr'
        rcases List.mem_append.mp hr' with h1 | h1
        · exact hacc r' h1
        · rw [List.mem_singleton] at h1
          subst h1
          rfl
      exact ih (processFace classify (f, acc) b).1 (processFace classify (f, acc) b).2
        hacc' r hr

/-- Claim C6: every FaceResult built by process_frame has dominant_emotion
equal to the first label attaining the maximum of its emotion distribution
in iteration order (Python max keeps the first of equals), and a result with
empty emotions has dominant neutral and yields a history entry with
confidence 0. -/
theorem C6_dominant_argmax (classify : Frame → Option Dist) (dets : List RelBox)
    (frame : Frame) (r : FaceResult) (t : ℚ)
    (hr : r ∈ (process_frame classify dets frame).2) :
    r.dominant_emotion = (firstArgmax r.emotions).getD "neutral" ∧
    (r.emotions = [] →
      r.dominant_emotion = "neutral" ∧ (mkHistoryEntry r t).confidence = 0) := by
  have hshape : r.dominant_emotion = dominantOf r.emotions := by
    refine process_frame_shape classify (detect_faces dets frame) frame [] ?_ r hr
    intro r' hr'
    exact absurd hr' (List.not_mem_nil r')
  constructor
  · rw [hshape, dominantOf_eq_firstArgmax]
  · intro he
    refine ⟨by rw [hshape, he]; rfl, ?_⟩
    simp [mkHistoryEntry, he]

/-- Witness for C6 at the single empty-emotions result produced by the
always-failing classifier on one detected face. -/
theorem C6_dominant_argmax_witness :
    (⟨(10, 10, 20, 20), [], "neutral"⟩ : FaceResult) ∈
      (process_frame exClassifyNone [exDet] exFrame).2 ∧
    ((⟨(10, 10, 20, 20), [], "neutral"⟩ : FaceResult).dominant_emotion =
        (firstArgmax (⟨(10, 10, 20, 20), [], "neutral"⟩ : FaceResult).emotions).getD
          "neutral" ∧
      ((⟨(10, 10, 20, 20), [], "neutral"⟩ : FaceResult).emotions = [] →
        (⟨(10, 10, 20, 20), [], "neutral"⟩ : FaceResult).dominant_emotion = "neutral" ∧
        (mkHistoryEntry ⟨(10, 10, 20, 20), [], "neutral"⟩ 0).confidence = 0)) := by
  have hmem : (⟨(10, 10, 20, 20), [], "neutral"⟩ : FaceResult) ∈
      (process_frame exClassifyNone [exDet] exFrame).2 := by
    have h : (process_frame exClassifyNone [exDet] exFrame).2 =
        (List.foldl (processFace exClassifyNone) (exFrame, []) [(10, 10, 20, 20)]).2 := by
      rw [process_frame, exDet_boxes]
    rw [h]
    decide
  exact ⟨hmem, C6_dominant_argmax exClassifyNone [exDet] exFrame _ 0 hmem⟩

theorem countGet_bump (l : List (String × Nat)) (e c : String) :
    countGet (bumpCount l e) c =
      if c = e then some ((countGet l c).getD 0 + 1) else countGet l c := by
  induction l with
  | nil =>
      by_cases h : c = e
      · subst h; simp [bumpCount, countGet]
      · have h' : ¬ e = c := fun hh => h hh.symm
        simp [bumpCount, countGet, h, h']
  | cons p rest ih =>
      obtain ⟨k0, c0⟩ := p
      by_cases h0 : k0 = e
      · subst h0
        by_cases hc : k0 = c
        · subst hc
          simp [bumpCount, countGet]
        · have hck : ¬ c = k0 := fun hh => hc hh.symm
          simp [bumpCount, countGet, hc, hck]
      · by_cases hc : k0 = c
        · subst hc
          simp [bumpCount, countGet, h0]
        · simp [bumpCount, countGet, h0, hc, ih]

theorem counts_fold_get (labels : List String) :
    ∀ (acc : List (String × Nat)) (c : String),
      countGet (labels.foldl bumpCount acc) c =
        if (countGet acc c).isSome = true ∨ c ∈ labels then
          some ((countGet acc c).getD 0 + labels.count c)
        else none := by
  induction labels with
  | nil =>
      intro acc c
      cases h : countGet acc c with
      | none => simp [h]
      | some v => simp [h]
  | cons e rest ih =>
      intro acc c
      have step : (e :: rest).foldl bumpCount acc = rest.foldl bumpCount (bumpCount acc e) :=
        rfl
      rw [step, ih, countGet_bump]
      by_cases hc : c = e
      · subst hc
        have h1 : (c :: rest).count c = rest.count c + 1 := by
          simp [List.count_cons]
        simp [h1]
        omega
      · have hmem : (c ∈ e :: rest) ↔ c ∈ rest := by
          simp [List.mem_cons, hc]
        have hcount : (e :: rest).count c = rest.count c :=
          List.count_cons_of_ne (fun hh => hc hh) _
        rw [if_neg hc, hcount]
        exact if_congr (or_congr Iff.rfl hmem.symm) rfl rfl

theorem countGet_map_div (l : List (String × Nat)) (t : ℚ) (c : String) :
    dictGet (l.map (fun p => (p.1, (p.2 : ℚ) / t))) c =
      (countGet l c).map (fun n => ((n : ℚ)) / t) := by
  induction l with
  | nil => simp [dictGet, countGet]
  | cons p rest ih =>
      obtain ⟨k, n⟩ := p
      by_cases h : k = c
      · simp [dictGet, countGet, h]
      · simp [dictGet, countGet, h, ih]

theorem statsOfLabels_get (labels : List String) (c : String) :
    dictGet (statsOfLabels labels) c =
      if c ∈ labels then some (((labels.count c : ℚ)) / ((labels.length : ℚ))) else none := by
  rw [statsOfLabels, countGet_map_div, counts_fold_get]
  have h2 : ((countGet [] c).isSome = true ∨ c ∈ labels) ↔ c ∈ labels := by
    constructor
    · rintro (h | h)
      · simp [countGet] at h
      · exact h
    · exact Or.inr
  rw [if_congr h2 rfl rfl]
  by_cases h : c ∈ labels
  · rw [if_pos h, if_pos h]
    simp [countGet]
  · rw [if_neg h, if_neg h]
    rfl

theorem live_stats_eq (history : List HistoryEntry) (hne : history ≠ []) :
    live_get_emotion_statistics history =
      statsOfLabels (history.map (fun en => en.emotion)) := by
  simp only [live_get_emotion_statistics, statsOfLabels]
  rw [if_neg hne, List.foldl_map, List.length_map]

theorem fer_stats_eq (results : List FaceResult) (hne : ¬ results.length = 0) :
    fer_get_emotion_statistics results =
      statsOfLabels (results.map (fun r => r.dominant_emotion)) := by
  simp only [fer_get_emotion_statistics, statsOfLabels]
  rw [if_neg hne, List.foldl_map, List.length_map]

theorem historyAppend_foldl (l : List HistoryEntry) :
    ∀ h : List HistoryEntry, h.length ≤ 100 →
      l.foldl historyAppend h = (h ++ l).drop (h.length + l.length - 100) := by
  induction l with
  | nil =>
      intro h hh
      simp [Nat.sub_eq_zero_of_le hh]
  | cons a l ih =>
      intro h hh
      rw [List.foldl_cons]
      by_cases hfull : 100 ≤ h.length
      · have h100 : h.length = 100 := le_antisymm hh hfull
        have happ : historyAppend h a = h.drop 1 ++ [a] := by
          simp only [historyAppend, if_pos hfull]
        have hlen : (h.drop 1 ++ [a]).length = 100 := by
          simp [List.length_drop, h100]
        rw [happ, ih _ (le_of_eq hlen), hlen]
        have e1 : 100 + l.length - 100 = l.length := by omega
        have e2 : h.length + (a :: l).length - 100 = l.length + 1 := by
          rw [h100, List.length_cons]
          omega
        rw [e1, e2]
        have e3 : (h.drop 1 ++ [a]) ++ l = (h ++ a :: l).drop 1 := by
          rw [List.append_assoc, List.singleton_append]
          exact (List.drop_append_of_le_length (by omega)).symm
        rw [e3, List.drop_drop]
        rw [Nat.add_comm]
      · have happ : historyAppend h a = h ++ [a] := by
          simp only [historyAppend, if_neg hfull]
        have hlen : (h ++ [a]).length ≤ 100 := by
          rw [List.length_append, List.length_cons, List.length_nil]
          omega
        rw [happ, ih _ hlen]
        have e1 : (h ++ [a]) ++ l = h ++ a :: l := by
          rw [List.append_assoc, List.singleton_append]
        have e2 : (h ++ [a]).length + l.length - 100 = h.length + (a :: l).length - 100 := by
          rw [List.length_append, List.length_cons, List.length_cons, List.length_nil]
          omega
        rw [e1, e2]

/-- Claim C7: the rolling history (a deque with maxlen 100) never exceeds
100 entries under any sequence of appends starting from a valid state, and
appending 150 entries to the empty history leaves exactly the last 100
appended entries in their original relative order, the earliest 50
evicted. -/
theorem C7_history_fifo (h : List HistoryEntry) (l : List HistoryEntry)
    (hh : h.length ≤ 100) :
    (l.foldl historyAppend h).length ≤ 100 ∧
    (l.length = 150 → l.foldl historyAppend [] = l.drop 50) := by
  constructor
  · rw [historyAppend_foldl l h hh, List.length_drop, List.length_append]
    omega
  · intro h150
    rw [historyAppend_foldl l [] (by simp)]
    simp [h150]

/-- Witness for C7: appending 150 identical entries to the empty history
leaves the last 100. -/
theorem C7_history_fifo_witness :
    (([] : List HistoryEntry).length ≤ 100) ∧
    (List.replicate 150 (⟨"happy", 1, 0⟩ : HistoryEntry)).length = 150 ∧
    ((List.replicate 150 (⟨"happy", 1, 0⟩ : HistoryEntry)).foldl historyAppend []).length
      ≤ 100 ∧
    (List.replicate 150 (⟨"happy", 1, 0⟩ : HistoryEntry)).foldl historyAppend [] =
      (List.replicate 150 (⟨"happy", 1, 0⟩ : HistoryEntry)).drop 50 := by
  have h := C7_history_fifo [] (List.replicate 150 ⟨"happy", 1, 0⟩) (by simp)
  exact ⟨by simp, by simp, h.1, h.2 (by simp)⟩

/-- Claim C8: the live statistics computation is a pure function of the
history snapshot: the empty snapshot yields the empty mapping (no
division-by-zero), a non-empty snapshot maps each occurring emotion to its
occurrence count divided by the snapshot length, and the concrete ten-entry
snapshot of six happy then four sad entries yields happy 3/5 and sad 2/5
(0.6 and 0.4). -/
theorem C8_statistics_pure (history : List HistoryEntry) (hne : history ≠ []) :
    live_get_emotion_statistics [] = [] ∧
    (∀ c, dictGet (live_get_emotion_statistics history) c =
        if c ∈ history.map (fun en => en.emotion) then
          some ((((history.map (fun en => en.emotion)).count c : ℚ)) /
            ((history.length : ℚ)))
        else none) ∧
    live_get_emotion_statistics exHistory10 = [("happy", 3 / 5), ("sad", 2 / 5)] := by
  refine ⟨rfl, ?_, ?_⟩
  · intro c
    rw [live_stats_eq history hne, statsOfLabels_get, List.length_map]
  · have hcounts : exHistory10.foldl (fun acc en => bumpCount acc en.emotion) [] =
        [("happy", 6), ("sad", 4)] := by decide
    have hnil : exHistory10 ≠ [] := by decide
    simp only [live_get_emotion_statistics]
    rw [if_neg hnil, hcounts]
    have hlen : ((exHistory10.length : ℚ)) = 10 := by
      norm_num [exHistory10]
    rw [hlen]
    norm_num

/-- Witness for C8 at the concrete ten-entry history. -/
theorem C8_statistics_pure_witness :
    exHistory10 ≠ [] ∧
    live_get_emotion_statistics [] = [] ∧
    dictGet (live_get_emotion_statistics exHistory10) "happy" =
      (if "happy" ∈ exHistory10.map (fun en => en.emotion) then
        some ((((exHistory10.map (fun en => en.emotion)).count "happy" : ℚ)) /
          ((exHistory10.length : ℚ)))
      else none) ∧
    live_get_emotion_statistics exHistory10 = [("happy", 3 / 5), ("sad", 2 / 5)] := by
  have h := C8_statistics_pure exHistory10 (by decide)
  exact ⟨by decide, h.1, h.2.1 "happy", h.2.2⟩

/-- Claim C10: the two statistics implementations agree as mappings whenever
the multiset of dominant_emotion labels of the results equals the multiset
of emotion labels of the history entries: every label is sent to the same
fraction (or absent from both). -/
theorem C10_statistics_equivalent (results : List FaceResult)
    (history : List HistoryEntry)
    (hperm : (results.map (fun r => r.dominant_emotion)).Perm
        (history.map (fun en => en.emotion))) :
    ∀ c, dictGet (fer_get_emotion_statistics results) c =
        dictGet (live_get_emotion_statistics history) c := by
  intro c
  by_cases hres : results.length = 0
  · have h1 : results = [] := List.length_eq_zero.mp hres
    subst h1
    have h0 : (List.map (fun r => r.dominant_emotion) ([] : List FaceResult)) = [] := rfl
    rw [h0] at hperm
    have h2 : history.map (fun en => en.emotion) = [] := hperm.symm.eq_nil
    have h3 : history = [] := List.map_eq_nil_iff.mp h2
    subst h3
    rfl
  · have hne1 : history ≠ [] := by
      intro hh
      subst hh
      have h0 : (List.map (fun en => en.emotion) ([] : List HistoryEntry)) = [] := rfl
      rw [h0] at hperm
      have h4 : results = [] := List.map_eq_nil_iff.mp hperm.eq_nil
      exact hres (by rw [h4]; rfl)
    rw [fer_stats_eq results hres, live_stats_eq history hne1,
      statsOfLabels_get, statsOfLabels_get]
    have hmem : c ∈ results.map (fun r => r.dominant_emotion) ↔
        c ∈ history.map (fun en => en.emotion) := hperm.mem_iff
    have hcount := hperm.count_eq c
    have hlen := hperm.length_eq
    by_cases hc : c ∈ results.map (fun r => r.dominant_emotion)
    · rw [if_pos hc, if_pos (hmem.mp hc), hcount, hlen]
    · rw [if_neg hc, if_neg (fun hh => hc (hmem.mpr hh))]

/-- Witness for C10 at two results and two history entries carrying the same
label multiset in different orders. -/
theorem C10_statistics_equivalent_witness :
    (List.map (fun r => r.dominant_emotion)
        [(⟨(0, 0, 1, 1), [], "happy"⟩ : FaceResult), ⟨(0, 0, 1, 1), [], "sad"⟩]).Perm
      (List.map (fun en => en.emotion)
        [(⟨"sad", 0, 0⟩ : HistoryEntry), ⟨"happy", 0, 0⟩]) ∧
    dictGet (fer_get_emotion_statistics
        [⟨(0, 0, 1, 1), [], "happy"⟩, ⟨(0, 0, 1, 1), [], "sad"⟩]) "happy" =
      dictGet (live_get_emotion_statistics [⟨"sad", 0, 0⟩, ⟨"happy", 0, 0⟩]) "happy" := by
  have hperm : (List.map (fun r => r.dominant_emotion)
      [(⟨(0, 0, 1, 1), [], "happy"⟩ : FaceResult), ⟨(0, 0, 1, 1), [], "sad"⟩]).Perm
      (List.map (fun en => en.emotion)
      [(⟨"sad", 0, 0⟩ : HistoryEntry), ⟨"happy", 0, 0⟩]) := by
    decide
  exact ⟨hperm, C10_statistics_equivalent _ _ hperm "happy"⟩

end FER
